import Mathlib

/-!
Shallow embedding of the `ipcalc` IPv4 subnet calculator.

The repository contains two variants of the same package plus a `main.go`
variant with cached network/broadcast fields:

* `ipcalc` below models the `Addr`/`Mask` variant (bitwise `Network`,
  `Broadcast`, the `IsIn` predicate, `IsContiguous`, `ToCidr`,
  `CidrToIpv4`, `DottedDecimalToUint32`, `stringToMask`, `Overlap`,
  `Subnet`).
* `ipcalcA` models the `Host`/`Mask` variant (arithmetic `Network` and
  `Broadcast`, `IsInNet`).
* `maingo` models the `main.go` variant with cached `Network`/`Broadcast`
  fields and the `setNetwork`/`setBroadcast` setters.

Machine integers (`uint32`) are modelled as `Nat` with explicit wrapping
(`% 4294967296`) wherever Go's arithmetic can overflow.  Go strings are
modelled as `List Char`; Go's `(T, error)` results as `Except String T`.
-/

set_option maxRecDepth 8192

/-- Decidable equality for Go-style `(value, error)` results. -/
instance {ε α : Type} [DecidableEq ε] [DecidableEq α] : DecidableEq (Except ε α) := fun a b =>
  match a, b with
  | .ok x, .ok y =>
    if h : x = y then .isTrue (by rw [h]) else .isFalse (fun hc => h (Except.ok.inj hc))
  | .error x, .error y =>
    if h : x = y then .isTrue (by rw [h]) else .isFalse (fun hc => h (Except.error.inj hc))
  | .ok _, .error _ => .isFalse (fun hc => Except.noConfusion hc)
  | .error _, .ok _ => .isFalse (fun hc => Except.noConfusion hc)

namespace ipcalc

/-- `TwoFiveFive = 255.255.255.255` (the all-ones 32-bit mask). -/
def TwoFiveFive : Nat := 4294967295

/-- Wrapping 32-bit addition (`uint32` `+`). -/
def add32 (a b : Nat) : Nat := (a + b) % 4294967296

/-- Wrapping 32-bit subtraction (`uint32` `-`), for operands below `2^32`. -/
def sub32 (a b : Nat) : Nat := (a + (4294967296 - b)) % 4294967296

/-- `Ipv4` of the `Addr`/`Mask` variant: a 32-bit address and mask. -/
structure Ipv4 where
  Addr : Nat
  Mask : Nat
deriving DecidableEq

/-- `Network` of the `Addr`/`Mask` variant: `i.Mask & i.Addr`. -/
def Network (i : Ipv4) : Nat := i.Mask &&& i.Addr

/-- `Broadcast` of the `Addr`/`Mask` variant: `(^i.Mask) | i.Addr`.
Go's bitwise complement `^m` on `uint32` is `4294967295 XOR m`. -/
def Broadcast (i : Ipv4) : Nat := (TwoFiveFive ^^^ i.Mask) ||| i.Addr

/-- `IsIn`: `(i.Addr >= n.Addr) && (i.Mask <= n.Mask)` (the mask-comparison
containment test of the `Addr`/`Mask` variant). -/
def IsIn (i n : Ipv4) : Bool := decide (i.Addr ≥ n.Addr) && decide (i.Mask ≤ n.Mask)

/-- Body of the `IsContiguous` loop: scans mask bits `n, n+1, ...` (LSB to
MSB) for `steps` iterations; `f` records whether a 1-bit has been seen. -/
def isContiguousGo (mask : Nat) (f : Bool) (n : Nat) : Nat → Bool
  | 0 => true
  | steps + 1 =>
    let b := mask &&& (1 <<< n)
    let f' := if b ≠ 0 then true else f
    if f' = true ∧ b = 0 then false
    else isContiguousGo mask f' (n + 1) steps

/-- `IsContiguous`: true iff the mask's 1-bits form a single high-order run
(the Go loop runs `n` from 0 to 31). -/
def IsContiguous (i : Ipv4) : Bool := isContiguousGo i.Mask false 0 32

/-- One step of `Subnet`'s mask-alignment loop:
`lo.Mask = uint32(1)<<31 + lo.Mask>>1`. -/
def maskStep (m : Nat) : Nat := (2147483648 + m >>> 1) % 4294967296

/-- The `bits` loop of `Subnet`: find the least `bits ≤ 32` with
`sharedBits>>bits == 0` and return `TwoFiveFive - (uint32(1)<<bits - 1)`;
if the loop exits without a break the mask keeps its zero value.
`uint32(1)<<bits` wraps to 0 at `bits = 32`, and the `- 1` wraps too. -/
def findCandGo (shared : Nat) (bits : Nat) : Nat → Nat
  | 0 => 0
  | fuel + 1 =>
    if shared >>> bits = 0 then TwoFiveFive - sub32 ((1 <<< bits) % 4294967296) 1
    else findCandGo shared (bits + 1) fuel

/-- Candidate mask from `start ^ stop` (the `for bits := 0; bits <= 32`
loop, 33 iterations). -/
def findCand (shared : Nat) : Nat := findCandGo shared 0 33

theorem findCandGo_lt (shared : Nat) : ∀ bits fuel, findCandGo shared bits fuel < 4294967296 := by
  intro bits fuel
  induction fuel generalizing bits with
  | zero => simp [findCandGo]
  | succ fuel ih =>
    simp only [findCandGo]
    split
    · simp only [TwoFiveFive, sub32]; omega
    · exact ih (bits + 1)

theorem findCand_lt (shared : Nat) : findCand shared < 4294967296 :=
  findCandGo_lt shared 0 33

/-- The unconditional `for {}` alignment loop of `Subnet`: widen/narrow the
mask by `maskStep` until `network(addr, mask) == addr`.  It terminates for
in-range inputs because every step strictly increases the mask until the
all-ones mask, which is aligned to every 32-bit address. -/
def alignMask (addr m : Nat) (ha : addr < 4294967296) (hm : m < 4294967296) : Nat :=
  if m &&& addr = addr then m
  else alignMask addr (maskStep m) ha (by simp only [maskStep]; omega)
termination_by 4294967296 - m
decreasing_by
  rename_i hnal
  have hm' : m ≠ 4294967295 := by
    intro h'
    apply hnal
    subst h'
    rw [show (4294967295 : Nat) = 2 ^ 32 - 1 by norm_num, Nat.and_comm]
    exact Nat.and_pow_two_sub_one_of_lt_two_pow (by simpa using ha)
  have hdiv : m >>> 1 = m / 2 := by
    simp [Nat.shiftRight_succ, Nat.shiftRight_zero]
  have hmod : (2147483648 + m >>> 1) % 4294967296 = 2147483648 + m / 2 := by
    rw [hdiv]; exact Nat.mod_eq_of_lt (by omega)
  simp only [maskStep, hmod]
  omega

/-- Number of iterations of the `alignMask` loop before it exits. -/
def alignCount (addr m : Nat) (ha : addr < 4294967296) (hm : m < 4294967296) : Nat :=
  if m &&& addr = addr then 0
  else 1 + alignCount addr (maskStep m) ha (by simp only [maskStep]; omega)
termination_by 4294967296 - m
decreasing_by
  rename_i hnal
  have hm' : m ≠ 4294967295 := by
    intro h'
    apply hnal
    subst h'
    rw [show (4294967295 : Nat) = 2 ^ 32 - 1 by norm_num, Nat.and_comm]
    exact Nat.and_pow_two_sub_one_of_lt_two_pow (by simpa using ha)
  have hdiv : m >>> 1 = m / 2 := by
    simp [Nat.shiftRight_succ, Nat.shiftRight_zero]
  have hmod : (2147483648 + m >>> 1) % 4294967296 = 2147483648 + m / 2 := by
    rw [hdiv]; exact Nat.mod_eq_of_lt (by omega)
  simp only [maskStep, hmod]
  omega

/-- The block `lo` built by `Subnet` in its main branch: address `start`,
mask the aligned candidate mask for the span `start ^ stop`. -/
def subnetLo (start stop : Nat) (h1 : start < 4294967296) : Ipv4 :=
  ⟨start, alignMask start (findCand (start ^^^ stop)) h1 (findCand_lt _)⟩

theorem subnetLo_addr_le (start stop : Nat) (h1 : start < 4294967296) :
    start ≤ Broadcast (subnetLo start stop h1) :=
  Nat.le_of_testBit (fun i hi => by simp [Broadcast, subnetLo, hi])

/-- `Subnet`: summarize `[start, stop]` into CIDR blocks (the `Addr`/`Mask`
variant, `src/ipcalc.go` lines 423-465).  The partial result that Go
returns alongside an error is dropped; callers only inspect the error. -/
def Subnet (start stop : Nat) (h1 : start < 4294967296) (h2 : stop < 4294967296) :
    Except String (List Ipv4) :=
  if start = stop then .ok [⟨start, TwoFiveFive⟩]
  else if start > stop then .error "Argument order is backwards"
  else if Broadcast (subnetLo start stop h1) = stop then .ok [subnetLo start stop h1]
  else if Broadcast (subnetLo start stop h1) > stop then .error "Internal Error"
  else
    match Subnet (add32 (Broadcast (subnetLo start stop h1)) 1) stop
      (by simp only [add32]; omega) h2 with
    | .error e => .error e
    | .ok next => .ok (subnetLo start stop h1 :: next)
termination_by stop - start
decreasing_by
  simp only [add32]
  have hble := subnetLo_addr_le start stop h1
  omega

/-- Recursion depth of `Subnet`: mirrors `Subnet`'s branching exactly and
counts the nesting of recursive calls (a call with no recursion has
depth 1). -/
def SubnetDepth (start stop : Nat) (h1 : start < 4294967296) (h2 : stop < 4294967296) : Nat :=
  if start = stop then 1
  else if start > stop then 1
  else if Broadcast (subnetLo start stop h1) = stop then 1
  else if Broadcast (subnetLo start stop h1) > stop then 1
  else 1 + SubnetDepth (add32 (Broadcast (subnetLo start stop h1)) 1) stop
    (by simp only [add32]; omega) h2
termination_by stop - start
decreasing_by
  simp only [add32]
  have hble := subnetLo_addr_le start stop h1
  omega

theorem Broadcast_lt {i : Ipv4} (ha : i.Addr < 4294967296) (hm : i.Mask < 4294967296) :
    Broadcast i < 4294967296 := by
  have hx : TwoFiveFive ^^^ i.Mask < 2 ^ 32 :=
    Nat.xor_lt_two_pow (by norm_num [TwoFiveFive]) (by simpa using hm)
  have := Nat.or_lt_two_pow hx (by simpa using ha)
  simpa [Broadcast] using this

/-- The part of `Overlap` after the ordering `switch`: compute the
candidate intersection bounds from the ordered pair `(lo, hi)` and
summarize them, collapsing a `Subnet` failure to the empty slice. -/
def overlapRest (lo hi : Ipv4) (hla : lo.Addr < 4294967296) (hlm : lo.Mask < 4294967296)
    (hha : hi.Addr < 4294967296) (hhm : hi.Mask < 4294967296) : List Ipv4 :=
  if (if Broadcast lo < Broadcast hi then Broadcast lo else Broadcast hi) < hi.Addr
      ∨ hi.Addr > Broadcast lo then []
  else
    match Subnet hi.Addr (if Broadcast lo < Broadcast hi then Broadcast lo else Broadcast hi)
      hha (by
        by_cases hc : Broadcast lo < Broadcast hi
        · simpa [hc] using Broadcast_lt hla hlm
        · simpa [hc] using Broadcast_lt hha hhm) with
    | .error _ => []
    | .ok res => res

/-- `Overlap` (`Addr`/`Mask` variant): order the two networks by address
(tie-break on mask), short-circuit on equality, then delegate to
`overlapRest`.  The final branch is Go's fall-through for the impossible
case `Addr` equal, `Mask` equal, structs unequal, where `lo` and `hi`
keep their zero values. -/
def Overlap (n1 n2 : Ipv4) (h1a : n1.Addr < 4294967296) (h1m : n1.Mask < 4294967296)
    (h2a : n2.Addr < 4294967296) (h2m : n2.Mask < 4294967296) : List Ipv4 :=
  if n1.Addr < n2.Addr then overlapRest n1 n2 h1a h1m h2a h2m
  else if n1.Addr > n2.Addr then overlapRest n2 n1 h2a h2m h1a h1m
  else if n1.Mask > n2.Mask then overlapRest n1 n2 h1a h1m h2a h2m
  else if n1.Mask < n2.Mask then overlapRest n2 n1 h2a h2m h1a h1m
  else if n1 = n2 then [n1]
  else overlapRest ⟨0, 0⟩ ⟨0, 0⟩ (by norm_num) (by norm_num) (by norm_num) (by norm_num)

/-- Go strings are modelled as lists of characters. -/
abbrev Str := List Char

/-- `strings.Split` with a one-character separator: splits at every
occurrence, keeping empty fields (`Split("", sep) = [""]`). -/
def splitOnChar (c : Char) : Str → List Str
  | [] => [[]]
  | x :: xs =>
    match splitOnChar c xs with
    | [] => [[]]
    | y :: ys => if x = c then [] :: y :: ys else (x :: y) :: ys

/-- ASCII decimal digit test (`'0' <= c && c <= '9'`). -/
def isDigitChar (c : Char) : Bool := decide (48 ≤ c.toNat) && decide (c.toNat ≤ 57)

/-- Value of a string of decimal digits. -/
def digitsVal (l : Str) : Nat := l.foldl (fun a c => 10 * a + (c.toNat - 48)) 0

/-- `strconv.Atoi`: an optional `+`/`-` sign followed by at least one
decimal digit, rejecting values outside the `int64` range (Go returns a
non-nil error in every failure case, including range overflow). -/
def Atoi (l : Str) : Option Int :=
  match l with
  | [] => none
  | c :: rest =>
    let ds : Str := if c = '-' ∨ c = '+' then rest else l
    if ds = [] then none
    else if ds.all isDigitChar then
      let v : Nat := digitsVal ds
      if c = '-' then (if v ≤ 9223372036854775808 then some (-(v : Int)) else none)
      else (if v ≤ 9223372036854775807 then some (v : Int) else none)
    else none

/-- Decimal rendering of a natural number, accumulator form; the fuel is
an upper bound on the digit count (`n` itself always suffices). -/
def toDecimalGo (n : Nat) (acc : Str) : Nat → Str
  | 0 => acc
  | fuel + 1 =>
    let d : Char := Char.ofNat (48 + n % 10)
    if n < 10 then d :: acc else toDecimalGo (n / 10) (d :: acc) fuel

/-- `strconv.Itoa` on the (non-negative) values this code renders. -/
def Itoa (n : Nat) : Str := toDecimalGo n [] (n + 1)

/-- `addrToString`: dotted-decimal rendering of a 32-bit address; each
`uint8(a >> k)` cast is a `% 256`. -/
def addrToString (a : Nat) : Str :=
  Itoa ((a >>> 24) % 256) ++ '.' :: Itoa ((a >>> 16) % 256) ++ '.' ::
    Itoa ((a >>> 8) % 256) ++ '.' :: Itoa (a % 256)

/-- The `maskToString` loop: run `i` from 0 while the mask is not yet
all-ones, shifting a 1-bit in from the top; at all-ones return `32 - i`;
after 32 iterations return `"0"`. -/
def maskToStringGo (m i : Nat) : Nat → Str
  | 0 => ['0']
  | fuel + 1 => if m = TwoFiveFive then Itoa (32 - i) else maskToStringGo (maskStep m) (i + 1) fuel

/-- `maskToString` (the `i < 32` variant of the `Addr`/`Mask` package). -/
def maskToString (m : Nat) : Str := maskToStringGo m 0 32

/-- `ToCidr` of the `Addr`/`Mask` variant: fails on a discontiguous mask,
otherwise renders `addr/len`. -/
def ToCidr (i : Ipv4) : Except String Str :=
  if IsContiguous i = false then
    .error "Cannot represent discontiguous subnet mask in CIDR notation"
  else .ok (addrToString i.Addr ++ '/' :: maskToString i.Mask)

/-- One octet inside `DottedDecimalToUint32`: `strconv.Atoi` then the
`0..255` range check; `uint8(n)` is a `% 256` cast. -/
def parseOctet (l : Str) : Except String Nat :=
  match Atoi l with
  | none => .error "Dotted decimal string contains non-numbers"
  | some n =>
    if n < 0 ∨ n > 255 then .error "Dotted decimal string contains non-numbers"
    else .ok (n.toNat % 256)

/-- `DottedDecimalToUint32`: exactly four dot-separated fields, each an
octet, recombined big-endian. -/
def DottedDecimalToUint32 (s : Str) : Except String Nat :=
  match splitOnChar '.' s with
  | [o0, o1, o2, o3] =>
    match parseOctet o0, parseOctet o1, parseOctet o2, parseOctet o3 with
    | .ok b0, .ok b1, .ok b2, .ok b3 => .ok (b0 <<< 24 ||| b1 <<< 16 ||| b2 <<< 8 ||| b3)
    | _, _, _, _ => .error "Dotted decimal string contains non-numbers"
  | _ => .error "Dotted decimal string for a 32-bit number must contain 3 dots"

/-- `stringToMask`: `strconv.Atoi`, range check `0..32`, then
`TwoFiveFive - uint32((1 << (32-b)) - 1)` (the shift is computed in `int`,
so it does not wrap; the `uint32` conversion is a `% 2^32`). -/
def stringToMask (s : Str) : Except String Nat :=
  match Atoi s with
  | none => .error "Invalid CIDR prefix"
  | some n =>
    if n < 0 ∨ n > 32 then .error "Invalid CIDR prefix"
    else .ok (TwoFiveFive - (((1 <<< (32 - n.toNat)) - 1) % 4294967296))

/-- `CidrToIpv4`: split on `/`; parse the first field as a dotted-decimal
address; when the split has exactly two fields parse the second as a mask
length, otherwise default the mask to `TwoFiveFive`. -/
def CidrToIpv4 (c : Str) : Except String Ipv4 :=
  let cidrArr := splitOnChar '/' c
  match DottedDecimalToUint32 (cidrArr.headD []) with
  | .error _ => .error "Failed to convert CIDR string to bits"
  | .ok h =>
    if cidrArr.length = 2 then
      match stringToMask (cidrArr.getD 1 []) with
      | .error _ => .error "Failed to convert CIDR string to bits"
      | .ok m => .ok ⟨h, m⟩
    else .ok ⟨h, TwoFiveFive⟩

/-- The blocks `l` tile the interval `[s, stop]` exactly: the first block
starts at `s`, each later block starts one past the previous block's
broadcast, and the last block's broadcast is `stop`. -/
def ChainCover (stop : Nat) : Nat → List Ipv4 → Prop
  | _, [] => False
  | s, [b] => b.Addr = s ∧ Broadcast b = stop
  | s, b :: c :: rest => b.Addr = s ∧ ChainCover stop (Broadcast b + 1) (c :: rest)

/-- The largest `k ≤ 32` such that `2^k` divides `s` (32 for `s = 0`):
the alignment of an address. -/
def lowBits (s : Nat) : Nat := Nat.findGreatest (fun k => 2 ^ k ∣ s) 32

/-- Modelled from the spec: an octet is a non-empty string of decimal
digits with value in `0..=255`. -/
def SpecOctet (l : Str) : Prop := l ≠ [] ∧ (∀ c ∈ l, isDigitChar c = true) ∧ digitsVal l ≤ 255

/-- Modelled from the spec: "exactly four dot-separated octets, each in
`0..=255`". -/
def SpecDotted (s : Str) : Prop :=
  ∃ o0 o1 o2 o3, SpecOctet o0 ∧ SpecOctet o1 ∧ SpecOctet o2 ∧ SpecOctet o3 ∧
    s = o0 ++ '.' :: o1 ++ '.' :: o2 ++ '.' :: o3

/-- Modelled from the spec: a CIDR mask length is a non-empty string of
decimal digits with value in `0..=32`. -/
def SpecMaskLen (l : Str) : Prop := l ≠ [] ∧ (∀ c ∈ l, isDigitChar c = true) ∧ digitsVal l ≤ 32

/-- Modelled from the spec: "a valid dotted-decimal address optionally
followed by `/` and a valid prefix length". -/
def SpecCidr (s : Str) : Prop :=
  SpecDotted s ∨ ∃ a p, SpecDotted a ∧ SpecMaskLen p ∧ s = a ++ '/' :: p

end ipcalc

namespace ipcalcA

/-- `Ipv4` of the `Host`/`Mask` variant. -/
structure Ipv4 where
  Host : Nat
  Mask : Nat
deriving DecidableEq

/-- `Network` of the `Host`/`Mask` variant:
`i.Mask + i.Host - (i.Mask | i.Host)` in wrapping `uint32` arithmetic. -/
def Network (i : Ipv4) : Nat :=
  ipcalc.sub32 (ipcalc.add32 i.Mask i.Host) (i.Mask ||| i.Host)

/-- `Broadcast` of the `Host`/`Mask` variant:
`TwoFiveFive - i.Mask + i.Network()` in wrapping `uint32` arithmetic. -/
def Broadcast (i : Ipv4) : Nat :=
  ipcalc.add32 (ipcalc.sub32 ipcalc.TwoFiveFive i.Mask) (Network i)

/-- `IsInNet`: `(n1.Host >= n2.Host) && (n1.Broadcast() <= n2.Broadcast())`. -/
def IsInNet (n1 n2 : Ipv4) : Bool :=
  decide (n1.Host ≥ n2.Host) && decide (Broadcast n1 ≤ Broadcast n2)

end ipcalcA

namespace maingo

/-- `Ipv4` of the `main.go` variant, with cached `Network` and `Broadcast`
fields alongside `Host` and `Mask`. -/
structure Ipv4 where
  Host : Nat
  Mask : Nat
  Network : Nat
  Broadcast : Nat
deriving DecidableEq

/-- `setNetwork`: `i.Network = i.Mask + i.Host - (i.Mask | i.Host)`. -/
def setNetwork (i : Ipv4) : Ipv4 :=
  { i with Network := ipcalc.sub32 (ipcalc.add32 i.Mask i.Host) (i.Mask ||| i.Host) }

/-- `setBroadcast`: `i.Broadcast = TwoFiveFive - i.Mask + i.Network`. -/
def setBroadcast (i : Ipv4) : Ipv4 :=
  { i with Broadcast := ipcalc.add32 (ipcalc.sub32 ipcalc.TwoFiveFive i.Mask) i.Network }

end maingo

namespace ipcalc

/-! ### Bit-level toolkit -/

theorem add_eq_lor_add_land : ∀ m h : Nat, m + h = (m ||| h) + (m &&& h) := by
  intro m
  induction m using Nat.strong_induction_on with
  | _ m ih =>
    intro h
    rcases Nat.eq_zero_or_pos m with hm | hm
    · subst hm; simp
    · have h2 : m / 2 + h / 2 = (m / 2 ||| h / 2) + (m / 2 &&& h / 2) :=
        ih (m / 2) (Nat.div_lt_self hm (by norm_num)) (h / 2)
      have hord : (m ||| h) / 2 = m / 2 ||| h / 2 := Nat.or_div_two
      have handd : (m &&& h) / 2 = m / 2 &&& h / 2 := Nat.and_div_two
      have ho := @Nat.or_mod_two_eq_one m h
      have ha := @Nat.and_mod_two_eq_one m h
      rcases Nat.mod_two_eq_zero_or_one m with hm0 | hm0 <;>
        rcases Nat.mod_two_eq_zero_or_one h with hh0 | hh0
      · have e1 : (m ||| h) % 2 = 0 := by
          rcases Nat.mod_two_eq_zero_or_one (m ||| h) with hx | hx
          · exact hx
          · rcases ho.mp hx with e | e <;> omega
        have e2 : (m &&& h) % 2 = 0 := by
          rcases Nat.mod_two_eq_zero_or_one (m &&& h) with hx | hx
          · exact hx
          · have := (ha.mp hx).1; omega
        omega
      · have e1 : (m ||| h) % 2 = 1 := ho.mpr (Or.inr hh0)
        have e2 : (m &&& h) % 2 = 0 := by
          rcases Nat.mod_two_eq_zero_or_one (m &&& h) with hx | hx
          · exact hx
          · have := (ha.mp hx).1; omega
        omega
      · have e1 : (m ||| h) % 2 = 1 := ho.mpr (Or.inl hm0)
        have e2 : (m &&& h) % 2 = 0 := by
          rcases Nat.mod_two_eq_zero_or_one (m &&& h) with hx | hx
          · exact hx
          · have := (ha.mp hx).2; omega
        omega
      · have e1 : (m ||| h) % 2 = 1 := ho.mpr (Or.inl hm0)
        have e2 : (m &&& h) % 2 = 1 := ha.mpr ⟨hm0, hh0⟩
        omega

theorem lor_eq_add_of_land_eq_zero {x y : Nat} (h : x &&& y = 0) : x ||| y = x + y := by
  have := add_eq_lor_add_land x y
  omega

theorem testBit_true_lt {m n i : Nat} (hm : m < 2 ^ n) (hb : m.testBit i = true) : i < n := by
  by_contra hni
  have hlt : m < 2 ^ i :=
    lt_of_lt_of_le hm (Nat.pow_le_pow_right (by norm_num) (le_of_not_lt hni))
  simp [Nat.testBit_lt_two_pow hlt] at hb

theorem xor_allones {n m : Nat} (hm : m < 2 ^ n) : (2 ^ n - 1) ^^^ m = 2 ^ n - 1 - m := by
  have hd : m &&& ((2 ^ n - 1) ^^^ m) = 0 := by
    apply Nat.eq_of_testBit_eq
    intro i
    simp only [Nat.testBit_and, Nat.testBit_xor, Nat.testBit_two_pow_sub_one, Nat.zero_testBit]
    cases hmb : m.testBit i with
    | false => simp
    | true => simp [testBit_true_lt hm hmb]
  have hu : m ||| ((2 ^ n - 1) ^^^ m) = 2 ^ n - 1 := by
    apply Nat.eq_of_testBit_eq
    intro i
    simp only [Nat.testBit_or, Nat.testBit_xor, Nat.testBit_two_pow_sub_one]
    cases hmb : m.testBit i with
    | false => simp
    | true => simp [testBit_true_lt hm hmb]
  have hsum := add_eq_lor_add_land m ((2 ^ n - 1) ^^^ m)
  rw [hd, hu] at hsum
  omega

theorem highMask_eq_shift {c : Nat} (hc : c ≤ 32) :
    (2 ^ 32 - 2 ^ c : Nat) = (2 ^ (32 - c) - 1) * 2 ^ c := by
  have h1 : (2 : Nat) ^ (32 - c) * 2 ^ c = 2 ^ 32 := by
    rw [← pow_add]; congr 1; omega
  calc (2 ^ 32 - 2 ^ c : Nat) = 2 ^ (32 - c) * 2 ^ c - 1 * 2 ^ c := by rw [h1, one_mul]
    _ = (2 ^ (32 - c) - 1) * 2 ^ c := by rw [Nat.sub_mul]

theorem testBit_highMask {c i : Nat} (hc : c ≤ 32) :
    (2 ^ 32 - 2 ^ c : Nat).testBit i = (decide (c ≤ i) && decide (i < 32)) := by
  rw [highMask_eq_shift hc, mul_comm, Nat.testBit_mul_pow_two, Nat.testBit_two_pow_sub_one]
  by_cases h1 : c ≤ i
  · by_cases h2 : i < 32 <;> simp [h1, h2] <;> omega
  · simp [h1]

theorem highMask_land_iff {addr c : Nat} (ha : addr < 2 ^ 32) (hc : c ≤ 32) :
    ((2 ^ 32 - 2 ^ c : Nat) &&& addr = addr) ↔ 2 ^ c ∣ addr := by
  constructor
  · intro h
    have hlow : ∀ i, i < c → addr.testBit i = false := by
      intro i hi
      have heq := congrArg (fun x => x.testBit i) h
      have hni : ¬ c ≤ i := by omega
      simp only [Nat.testBit_and, testBit_highMask hc] at heq
      simpa [hni] using heq.symm
    apply Nat.dvd_of_mod_eq_zero
    apply Nat.eq_of_testBit_eq
    intro i
    simp only [Nat.testBit_mod_two_pow, Nat.zero_testBit]
    by_cases hic : i < c
    · simp [hic, hlow i hic]
    · simp [hic]
  · rintro ⟨q, hq⟩
    apply Nat.eq_of_testBit_eq
    intro i
    simp only [Nat.testBit_and, testBit_highMask hc]
    cases hb : addr.testBit i with
    | false => simp
    | true =>
      have hi32 : i < 32 := testBit_true_lt ha hb
      have hci : c ≤ i := by
        by_contra hci
        rw [hq, Nat.testBit_mul_pow_two] at hb
        simp [hci] at hb
      simp [hci, hi32]

theorem lt_u32 {x : Nat} (h : x < 4294967296) : x < 2 ^ 32 := by
  have h32 : (2 : Nat) ^ 32 = 4294967296 := by norm_num
  omega

theorem u32_lt {x : Nat} (h : x < 2 ^ 32) : x < 4294967296 := by
  have h32 : (2 : Nat) ^ 32 = 4294967296 := by norm_num
  omega

theorem shiftRight_one_eq (m : Nat) : m >>> 1 = m / 2 := by
  simp [Nat.shiftRight_succ, Nat.shiftRight_zero]

theorem maskStep_pow {c : Nat} (hc1 : 1 ≤ c) (hc2 : c ≤ 32) :
    maskStep (2 ^ 32 - 2 ^ c) = 2 ^ 32 - 2 ^ (c - 1) := by
  have h1 : (2 : Nat) ^ c = 2 * 2 ^ (c - 1) := by
    conv_lhs => rw [show c = (c - 1) + 1 by omega]
    ring
  have h3 : (2 : Nat) ^ (c - 1) ≤ 2 ^ 31 := Nat.pow_le_pow_right (by norm_num) (by omega)
  have h4 : (2 : Nat) ^ 32 = 2 * 2 ^ 31 := by norm_num
  have h31 : (2147483648 : Nat) = 2 ^ 31 := by norm_num
  have h32 : (4294967296 : Nat) = 2 ^ 32 := by norm_num
  have h5 : 1 ≤ (2 : Nat) ^ (c - 1) := Nat.one_le_two_pow
  simp only [maskStep, shiftRight_one_eq]
  omega

theorem findCandGo_spec (shared : Nat) (hs : shared < 4294967296) :
    ∀ fuel bits, bits + fuel = 33 → (∀ v, v < bits → shared >>> v ≠ 0) →
      ∃ w, bits ≤ w ∧ w ≤ 32 ∧ findCandGo shared bits fuel = 2 ^ 32 - 2 ^ w ∧
        shared >>> w = 0 ∧ (∀ v, v < w → shared >>> v ≠ 0) := by
  intro fuel
  induction fuel with
  | zero =>
    intro bits hb hmin
    exfalso
    have h0 : shared >>> 32 = 0 := by
      rw [Nat.shiftRight_eq_div_pow]
      have h32 : (2 : Nat) ^ 32 = 4294967296 := by norm_num
      rw [h32]
      omega
    exact hmin 32 (by omega) h0
  | succ fuel ih =>
    intro bits hb hmin
    by_cases h0 : shared >>> bits = 0
    · refine ⟨bits, le_refl _, by omega, ?_, h0, hmin⟩
      simp only [findCandGo, if_pos h0]
      by_cases hb32 : bits = 32
      · subst hb32; decide
      · have hlt : (2 : Nat) ^ bits < 2 ^ 32 :=
          Nat.pow_lt_pow_right (by norm_num) (by omega)
        have hsl : (1 : Nat) <<< bits = 2 ^ bits := by
          rw [Nat.shiftLeft_eq, one_mul]
        have h1 : 1 ≤ (2 : Nat) ^ bits := Nat.one_le_two_pow
        have h32 : (2 : Nat) ^ 32 = 4294967296 := by norm_num
        simp only [hsl, sub32, TwoFiveFive]
        omega
    · simp only [findCandGo, if_neg h0]
      obtain ⟨w, hw1, hw2, hw3, hw4, hw5⟩ := ih (bits + 1) (by omega)
        (fun v hv => by
          rcases Nat.lt_or_ge v bits with h | h
          · exact hmin v h
          · have : v = bits := by omega
            subst this; exact h0)
      exact ⟨w, by omega, hw2, hw3, hw4, hw5⟩

theorem findCand_spec (shared : Nat) (hs : shared < 4294967296) :
    ∃ w, w ≤ 32 ∧ findCand shared = 2 ^ 32 - 2 ^ w ∧ shared >>> w = 0 ∧
      (∀ v, v < w → shared >>> v ≠ 0) := by
  obtain ⟨w, _, hw2, hw3, hw4, hw5⟩ :=
    findCandGo_spec shared hs 33 0 (by omega) (fun v hv => absurd hv (by omega))
  exact ⟨w, hw2, hw3, hw4, hw5⟩

theorem maskStep_gt {addr m : Nat} (ha : addr < 4294967296) (hm : m < 4294967296)
    (hnal : m &&& addr ≠ addr) : m < maskStep m ∧ maskStep m < 4294967296 := by
  have hm' : m ≠ 4294967295 := by
    intro h'
    apply hnal
    subst h'
    rw [show (4294967295 : Nat) = 2 ^ 32 - 1 by norm_num, Nat.and_comm]
    exact Nat.and_pow_two_sub_one_of_lt_two_pow (lt_u32 ha)
  simp only [maskStep, shiftRight_one_eq]
  omega

theorem alignMask_land (addr : Nat) (ha : addr < 4294967296) :
    ∀ k m (hm : m < 4294967296), 4294967296 - m = k →
      (alignMask addr m ha hm) &&& addr = addr := by
  intro k
  induction k using Nat.strong_induction_on with
  | _ k ih =>
    intro m hm hk
    rw [alignMask]
    split
    · rename_i h; exact h
    · rename_i hnal
      obtain ⟨hgt, hlt⟩ := maskStep_gt ha hm hnal
      exact ih (4294967296 - maskStep m) (by omega) (maskStep m) hlt rfl

theorem alignMask_ge (addr : Nat) (ha : addr < 4294967296) :
    ∀ k m (hm : m < 4294967296), 4294967296 - m = k →
      m ≤ alignMask addr m ha hm := by
  intro k
  induction k using Nat.strong_induction_on with
  | _ k ih =>
    intro m hm hk
    rw [alignMask]
    split
    · exact le_refl m
    · rename_i hnal
      obtain ⟨hgt, hlt⟩ := maskStep_gt ha hm hnal
      have := ih (4294967296 - maskStep m) (by omega) (maskStep m) hlt rfl
      omega

theorem alignCount_le (addr : Nat) (ha : addr < 4294967296) :
    ∀ j m (hm : m < 4294967296), 2 ^ 32 - 2 ^ j ≤ m →
      alignCount addr m ha hm ≤ j := by
  intro j
  induction j with
  | zero =>
    intro m hm hge
    have h32 : (2 : Nat) ^ 32 = 4294967296 := by norm_num
    have hm' : m = 4294967295 := by omega
    rw [alignCount, if_pos]
    subst hm'
    rw [show (4294967295 : Nat) = 2 ^ 32 - 1 by norm_num, Nat.and_comm]
    exact Nat.and_pow_two_sub_one_of_lt_two_pow (lt_u32 ha)
  | succ j ihj =>
    intro m hm hge
    rw [alignCount]
    split
    · omega
    · rename_i hnal
      obtain ⟨hgt, hlt⟩ := maskStep_gt ha hm hnal
      have hrec : alignCount addr (maskStep m) ha (by simp only [maskStep]; omega) ≤ j := by
        apply ihj
        have e1 : (2 : Nat) ^ (j + 1) = 2 * 2 ^ j := by ring
        have h32 : (2 : Nat) ^ 32 = 4294967296 := by norm_num
        by_cases hj : j ≤ 31
        · have h2j : (2 : Nat) ^ j ≤ 2 ^ 31 := Nat.pow_le_pow_right (by norm_num) hj
          have h31 : (2 : Nat) ^ 31 = 2147483648 := by norm_num
          simp only [maskStep, shiftRight_one_eq]
          omega
        · have h2j : (2 : Nat) ^ 32 ≤ 2 ^ j := Nat.pow_le_pow_right (by norm_num) (by omega)
          simp only [maskStep, shiftRight_one_eq]
          omega
      omega

theorem alignCount_le_32 (addr m : Nat) (ha : addr < 4294967296) (hm : m < 4294967296) :
    alignCount addr m ha hm ≤ 32 :=
  alignCount_le addr ha 32 m hm (by omega)

theorem alignMask_pow (addr : Nat) (ha : addr < 4294967296) :
    ∀ c (hc : c ≤ 32) (hm : 2 ^ 32 - 2 ^ c < 4294967296),
      alignMask addr (2 ^ 32 - 2 ^ c) ha hm =
        2 ^ 32 - 2 ^ Nat.findGreatest (fun k => (2 : Nat) ^ k ∣ addr) c := by
  intro c
  induction c with
  | zero =>
    intro hc hm
    rw [alignMask, if_pos]
    · rfl
    · exact (highMask_land_iff (lt_u32 ha) (by omega)).mpr (by simpa using one_dvd addr)
  | succ c ihc =>
    intro hc hm
    rw [Nat.findGreatest_succ]
    by_cases hdvd : (2 : Nat) ^ (c + 1) ∣ addr
    · rw [alignMask, if_pos ((highMask_land_iff (lt_u32 ha) hc).mpr hdvd), if_pos hdvd]
    · rw [alignMask, if_neg, if_neg hdvd]
      · have hstep : maskStep (2 ^ 32 - 2 ^ (c + 1)) = 2 ^ 32 - 2 ^ c := by
          have := maskStep_pow (show 1 ≤ c + 1 by omega) hc
          simpa using this
        have hb2 : (2 : Nat) ^ 32 - 2 ^ c < 4294967296 := by
          have h32 : (2 : Nat) ^ 32 = 4294967296 := by norm_num
          have h1 : 1 ≤ (2 : Nat) ^ c := Nat.one_le_two_pow
          omega
        have hgen : ∀ m1 m2 (p1 : m1 < 4294967296) (p2 : m2 < 4294967296), m1 = m2 →
            alignMask addr m1 ha p1 = alignMask addr m2 ha p2 := by
          intro m1 m2 p1 p2 he
          subst he
          rfl
        rw [hgen (maskStep (2 ^ 32 - 2 ^ (c + 1))) (2 ^ 32 - 2 ^ c) _ hb2 hstep]
        exact ihc (by omega) hb2
      · intro hal
        exact hdvd ((highMask_land_iff (lt_u32 ha) hc).mp hal)

theorem alignMask_congr (addr : Nat) (ha : addr < 4294967296) (m1 m2 : Nat)
    (p1 : m1 < 4294967296) (p2 : m2 < 4294967296) (he : m1 = m2) :
    alignMask addr m1 ha p1 = alignMask addr m2 ha p2 := by
  subst he
  rfl

theorem broadcast_pow {start c : Nat} (hc : c ≤ 32) (hdvd : (2 : Nat) ^ c ∣ start) :
    Broadcast ⟨start, 2 ^ 32 - 2 ^ c⟩ = start + 2 ^ c - 1 := by
  obtain ⟨q, hq⟩ := hdvd
  have hmlt : (2 : Nat) ^ 32 - 2 ^ c < 2 ^ 32 := by
    have h1 : 1 ≤ (2 : Nat) ^ c := Nat.one_le_two_pow
    have h2 : (0 : Nat) < 2 ^ 32 := by norm_num
    omega
  have hxor : TwoFiveFive ^^^ (2 ^ 32 - 2 ^ c) = 2 ^ c - 1 := by
    rw [show TwoFiveFive = 2 ^ 32 - 1 by norm_num [TwoFiveFive]]
    rw [xor_allones hmlt]
    have h1 : (2 : Nat) ^ c ≤ 2 ^ 32 := Nat.pow_le_pow_right (by norm_num) hc
    omega
  show (TwoFiveFive ^^^ (2 ^ 32 - 2 ^ c)) ||| start = start + 2 ^ c - 1
  rw [hxor, hq, Nat.or_comm]
  have hble : (2 : Nat) ^ c - 1 < 2 ^ c := by
    have h1 : 1 ≤ (2 : Nat) ^ c := Nat.one_le_two_pow
    omega
  rw [← Nat.mul_add_lt_is_or hble q]
  have h1 : 1 ≤ (2 : Nat) ^ c := Nat.one_le_two_pow
  omega

theorem shiftRight_eq_of_xor_shiftRight_zero {x y w : Nat} (h : (x ^^^ y) >>> w = 0) :
    x >>> w = y >>> w := by
  apply Nat.eq_of_testBit_eq
  intro i
  have h0 := congrArg (fun z => z.testBit i) h
  simp only [Nat.testBit_shiftRight, Nat.testBit_xor, Nat.zero_testBit] at h0
  simp only [Nat.testBit_shiftRight]
  revert h0
  cases x.testBit (w + i) <;> cases y.testBit (w + i) <;> simp

theorem pow_dvd_findGreatest (start w : Nat) :
    (2 : Nat) ^ Nat.findGreatest (fun k => (2 : Nat) ^ k ∣ start) w ∣ start := by
  induction w with
  | zero => simpa using one_dvd start
  | succ w ih =>
    rw [Nat.findGreatest_succ]
    split
    · rename_i h; exact h
    · exact ih

/-- One level of `Subnet`'s block construction, for `start < stop`: the
aligned mask is `2^32 - 2^j` where `j` is the largest alignment of `start`
not exceeding the span width `w`, the block's broadcast is
`start + 2^j - 1`, and `stop` lies below `start + 2^w`. -/
theorem subnet_block (start stop : Nat) (h1 : start < 4294967296) (h2 : stop < 4294967296)
    (hlt : start < stop) :
    ∃ j w, j ≤ w ∧ w ≤ 32 ∧ (2 : Nat) ^ j ∣ start ∧
      alignMask start (findCand (start ^^^ stop)) h1 (findCand_lt _) = 2 ^ 32 - 2 ^ j ∧
      Broadcast ⟨start, 2 ^ 32 - 2 ^ j⟩ = start + 2 ^ j - 1 ∧
      stop < start + 2 ^ w ∧
      j = Nat.findGreatest (fun k => (2 : Nat) ^ k ∣ start) w := by
  have hs : start ^^^ stop < 4294967296 :=
    u32_lt (Nat.xor_lt_two_pow (lt_u32 h1) (lt_u32 h2))
  obtain ⟨w, hw32, hcand, hsh, _⟩ := findCand_spec (start ^^^ stop) hs
  set j := Nat.findGreatest (fun k => (2 : Nat) ^ k ∣ start) w with hj
  have hjw : j ≤ w := Nat.findGreatest_le w
  have hdvd : (2 : Nat) ^ j ∣ start := by
    rw [hj]; exact pow_dvd_findGreatest start w
  have hwlt : (2 : Nat) ^ 32 - 2 ^ w < 4294967296 := by
    have h32 : (2 : Nat) ^ 32 = 4294967296 := by norm_num
    have hone : 1 ≤ (2 : Nat) ^ w := Nat.one_le_two_pow
    omega
  have hmask : alignMask start (findCand (start ^^^ stop)) h1 (findCand_lt _) = 2 ^ 32 - 2 ^ j := by
    rw [alignMask_congr start h1 (findCand (start ^^^ stop)) (2 ^ 32 - 2 ^ w)
      (findCand_lt _) hwlt hcand]
    exact alignMask_pow start h1 w hw32 hwlt
  have hagree : stop < start + 2 ^ w := by
    have hdiv : start >>> w = stop >>> w := shiftRight_eq_of_xor_shiftRight_zero hsh
    rw [Nat.shiftRight_eq_div_pow, Nat.shiftRight_eq_div_pow] at hdiv
    have hd1 := Nat.div_add_mod start (2 ^ w)
    have hd2 := Nat.div_add_mod stop (2 ^ w)
    rw [← hdiv] at hd2
    have hm2 : stop % 2 ^ w < 2 ^ w := Nat.mod_lt _ (Nat.two_pow_pos w)
    have hm1 : start % 2 ^ w < 2 ^ w := Nat.mod_lt _ (Nat.two_pow_pos w)
    omega
  exact ⟨j, w, hjw, hw32, hdvd, hmask, broadcast_pow (le_trans hjw hw32) hdvd, hagree, hj⟩

theorem Subnet_congr (stop : Nat) (h2 : stop < 4294967296) (s1 s2 : Nat)
    (p1 : s1 < 4294967296) (p2 : s2 < 4294967296) (he : s1 = s2) :
    Subnet s1 stop p1 h2 = Subnet s2 stop p2 h2 := by
  subst he
  rfl

theorem SubnetDepth_congr (stop : Nat) (h2 : stop < 4294967296) (s1 s2 : Nat)
    (p1 : s1 < 4294967296) (p2 : s2 < 4294967296) (he : s1 = s2) :
    SubnetDepth s1 stop p1 h2 = SubnetDepth s2 stop p2 h2 := by
  subst he
  rfl

/-- `subnetLo` in terms of the span width `w` and the alignment `j`. -/
theorem subnetLo_spec (start stop : Nat) (h1 : start < 4294967296) (h2 : stop < 4294967296)
    (hlt : start < stop) :
    ∃ j w, j ≤ w ∧ w ≤ 32 ∧ (2 : Nat) ^ j ∣ start ∧
      subnetLo start stop h1 = ⟨start, 2 ^ 32 - 2 ^ j⟩ ∧
      Broadcast (subnetLo start stop h1) = start + 2 ^ j - 1 ∧
      stop < start + 2 ^ w ∧
      j = Nat.findGreatest (fun k => (2 : Nat) ^ k ∣ start) w := by
  obtain ⟨j, w, hjw, hw32, hdvd, hmask, hbro, hagree, hj⟩ :=
    subnet_block start stop h1 h2 hlt
  have hlo : subnetLo start stop h1 = ⟨start, 2 ^ 32 - 2 ^ j⟩ := by
    simp only [subnetLo, hmask]
  exact ⟨j, w, hjw, hw32, hdvd, hlo, by rw [hlo]; exact hbro, hagree, hj⟩

theorem isContiguous_pow (c : Nat) (hc : c ≤ 32) (a : Nat) :
    IsContiguous ⟨a, 2 ^ 32 - 2 ^ c⟩ = true := by
  show isContiguousGo (2 ^ 32 - 2 ^ c) false 0 32 = true
  interval_cases c <;> decide

theorem findGreatest_dvd_lt {start w j : Nat}
    (hj : Nat.findGreatest (fun k => (2 : Nat) ^ k ∣ start) w = j) (hlt : j < w) :
    ¬ (2 : Nat) ^ (j + 1) ∣ start := by
  intro hdvd
  have hle : j + 1 ≤ Nat.findGreatest (fun k => (2 : Nat) ^ k ∣ start) w := by
    apply Nat.le_findGreatest (by omega)
    exact hdvd
  omega

theorem lowBits_eq (start j w : Nat) (hjw : j < w) (hw : w ≤ 32)
    (hj : j = Nat.findGreatest (fun k => (2 : Nat) ^ k ∣ start) w)
    (hdj : (2 : Nat) ^ j ∣ start) : lowBits start = j := by
  have hnd : ¬ (2 : Nat) ^ (j + 1) ∣ start := findGreatest_dvd_lt hj.symm hjw
  have hd32 : (2 : Nat) ^ lowBits start ∣ start := pow_dvd_findGreatest start 32
  have hub : lowBits start ≤ j := by
    by_contra hub
    exact hnd (dvd_trans (pow_dvd_pow 2 (by omega)) hd32)
  have hlb : j ≤ lowBits start := by
    show j ≤ Nat.findGreatest (fun k => (2 : Nat) ^ k ∣ start) 32
    exact Nat.le_findGreatest (by omega) hdj
  omega

theorem next_align {start j : Nat} (hdj : (2 : Nat) ^ j ∣ start)
    (hnd : ¬ (2 : Nat) ^ (j + 1) ∣ start) : (2 : Nat) ^ (j + 1) ∣ start + 2 ^ j := by
  obtain ⟨q, hq⟩ := hdj
  rcases Nat.even_or_odd q with he | ho
  · exfalso
    obtain ⟨r, hr⟩ := he
    exact hnd ⟨r, by rw [hq, hr]; ring⟩
  · obtain ⟨r, hr⟩ := ho
    exact ⟨r + 1, by rw [hq, hr]; ring⟩

/-- Invariants of every successful `Subnet` run: each block is aligned to
its own mask and has a contiguous mask, and the blocks tile `[start, stop]`
exactly in ascending order. -/
theorem Subnet_ok_aux (stop : Nat) (h2 : stop < 4294967296) :
    ∀ k start (h1 : start < 4294967296), stop - start = k →
      ∀ l, Subnet start stop h1 h2 = .ok l →
        (∀ b ∈ l, b.Addr &&& b.Mask = b.Addr ∧ IsContiguous b = true) ∧
          ChainCover stop start l := by
  intro k
  induction k using Nat.strong_induction_on with
  | _ k ih =>
    intro start h1 hk l hok
    rw [Subnet] at hok
    by_cases hes : start = stop
    · rw [if_pos hes] at hok
      injection hok with hok
      subst hok
      constructor
      · intro b hb
        simp only [List.mem_singleton] at hb
        subst hb
        refine ⟨?_, ?_⟩
        · show start &&& TwoFiveFive = start
          rw [show TwoFiveFive = 2 ^ 32 - 1 by norm_num [TwoFiveFive]]
          exact Nat.and_pow_two_sub_one_of_lt_two_pow (lt_u32 h1)
        · exact (by decide : isContiguousGo TwoFiveFive false 0 32 = true)
      · show (Ipv4.mk start TwoFiveFive).Addr = start ∧ Broadcast ⟨start, TwoFiveFive⟩ = stop
        refine ⟨rfl, ?_⟩
        show (TwoFiveFive ^^^ TwoFiveFive) ||| start = stop
        rw [Nat.xor_self]
        simpa using hes
    rw [if_neg hes] at hok
    by_cases hgt : start > stop
    · rw [if_pos hgt] at hok
      simp at hok
    rw [if_neg hgt] at hok
    obtain ⟨j, w, hjw, hw32, hdj, hlo, hbro, hag, hj⟩ :=
      subnetLo_spec start stop h1 h2 (by omega)
    have h2j : 1 ≤ (2 : Nat) ^ j := Nat.one_le_two_pow
    have hjle : j ≤ 32 := le_trans hjw hw32
    have hblock : start &&& (2 ^ 32 - 2 ^ j) = start ∧
        IsContiguous ⟨start, 2 ^ 32 - 2 ^ j⟩ = true := by
      refine ⟨?_, isContiguous_pow j hjle start⟩
      rw [Nat.and_comm]
      exact (highMask_land_iff (lt_u32 h1) hjle).mpr hdj
    by_cases heq : Broadcast (subnetLo start stop h1) = stop
    · rw [if_pos heq] at hok
      injection hok with hok
      subst hok
      constructor
      · intro b hb
        simp only [List.mem_singleton] at hb
        subst hb
        rw [hlo]
        exact hblock
      · show (subnetLo start stop h1).Addr = start ∧ Broadcast (subnetLo start stop h1) = stop
        refine ⟨by rw [hlo], heq⟩
    rw [if_neg heq] at hok
    by_cases hov : Broadcast (subnetLo start stop h1) > stop
    · rw [if_pos hov] at hok
      simp at hok
    rw [if_neg hov] at hok
    have hblt : Broadcast (subnetLo start stop h1) < stop := by omega
    have hplt : start + 2 ^ j < 4294967296 := by omega
    have hadd : add32 (Broadcast (subnetLo start stop h1)) 1 = start + 2 ^ j := by
      simp only [add32, hbro]
      omega
    rw [Subnet_congr stop h2 _ (start + 2 ^ j) _ hplt hadd] at hok
    cases hres : Subnet (start + 2 ^ j) stop hplt h2 with
    | error e =>
      rw [hres] at hok
      simp at hok
    | ok next =>
      rw [hres] at hok
      injection hok with hok
      subst hok
      obtain ⟨hprops, hchain⟩ :=
        ih (stop - (start + 2 ^ j)) (by omega) (start + 2 ^ j) hplt rfl next hres
      constructor
      · intro b hb
        rcases List.mem_cons.mp hb with hb | hb
        · subst hb
          rw [hlo]
          exact hblock
        · exact hprops b hb
      · cases next with
        | nil => exact hchain.elim
        | cons n1 rest =>
          show (subnetLo start stop h1).Addr = start ∧
            ChainCover stop (Broadcast (subnetLo start stop h1) + 1) (n1 :: rest)
          refine ⟨by rw [hlo], ?_⟩
          have he : Broadcast (subnetLo start stop h1) + 1 = start + 2 ^ j := by omega
          rw [he]
          exact hchain

theorem SubnetDepth_bound (stop : Nat) (h2 : stop < 4294967296) :
    ∀ k start (h1 : start < 4294967296), stop - start = k →
      SubnetDepth start stop h1 h2 ≤ 33 - lowBits start := by
  intro k
  induction k using Nat.strong_induction_on with
  | _ k ih =>
    intro start h1 hk
    have hlb32 : lowBits start ≤ 32 := Nat.findGreatest_le 32
    rw [SubnetDepth]
    by_cases hes : start = stop
    · rw [if_pos hes]; omega
    rw [if_neg hes]
    by_cases hgt : start > stop
    · rw [if_pos hgt]; omega
    rw [if_neg hgt]
    obtain ⟨j, w, hjw, hw32, hdj, hlo, hbro, hag, hj⟩ :=
      subnetLo_spec start stop h1 h2 (by omega)
    have h2j : 1 ≤ (2 : Nat) ^ j := Nat.one_le_two_pow
    by_cases heq : Broadcast (subnetLo start stop h1) = stop
    · rw [if_pos heq]; omega
    rw [if_neg heq]
    by_cases hov : Broadcast (subnetLo start stop h1) > stop
    · rw [if_pos hov]; omega
    rw [if_neg hov]
    have hblt : Broadcast (subnetLo start stop h1) < stop := by omega
    have hjltw : j < w := by
      rcases eq_or_lt_of_le hjw with he | hlt'
      · exfalso; subst he; omega
      · exact hlt'
    have hlbe : lowBits start = j := lowBits_eq start j w hjltw hw32 hj hdj
    have hnd : ¬ (2 : Nat) ^ (j + 1) ∣ start := findGreatest_dvd_lt hj.symm hjltw
    have hna : (2 : Nat) ^ (j + 1) ∣ start + 2 ^ j := next_align hdj hnd
    have hplt : start + 2 ^ j < 4294967296 := by omega
    have hadd : add32 (Broadcast (subnetLo start stop h1)) 1 = start + 2 ^ j := by
      simp only [add32, hbro]
      omega
    rw [SubnetDepth_congr stop h2 _ (start + 2 ^ j) _ hplt hadd]
    have hrec := ih (stop - (start + 2 ^ j)) (by omega) (start + 2 ^ j) hplt rfl
    have hlb' : j + 1 ≤ lowBits (start + 2 ^ j) := by
      show j + 1 ≤ Nat.findGreatest (fun k => (2 : Nat) ^ k ∣ (start + 2 ^ j)) 32
      exact Nat.le_findGreatest (by omega) hna
    have hlb'32 : lowBits (start + 2 ^ j) ≤ 32 := Nat.findGreatest_le 32
    omega

theorem networkA_eq (h m : Nat) (hh : h < 4294967296) (hm : m < 4294967296) :
    ipcalcA.Network ⟨h, m⟩ = m &&& h := by
  show sub32 (add32 m h) (m ||| h) = m &&& h
  have hsum := add_eq_lor_add_land m h
  have hor : m ||| h < 4294967296 := u32_lt (Nat.or_lt_two_pow (lt_u32 hm) (lt_u32 hh))
  have hand : m &&& h ≤ m := Nat.and_le_left
  simp only [sub32, add32]
  omega

theorem compl_lor_eq (h m : Nat) (hh : h < 4294967296) (hm : m < 4294967296) :
    ((2 ^ 32 - 1 : Nat) ^^^ m) ||| h = ((2 ^ 32 - 1 : Nat) ^^^ m) + (m &&& h) := by
  have f1 : ((2 ^ 32 - 1 : Nat) ^^^ m) &&& (m &&& h) = 0 := by
    apply Nat.eq_of_testBit_eq
    intro i
    simp only [Nat.testBit_and, Nat.testBit_xor, Nat.testBit_two_pow_sub_one, Nat.zero_testBit]
    cases hmb : m.testBit i with
    | false => simp
    | true => simp [testBit_true_lt (lt_u32 hm) hmb]
  have f2 : ((2 ^ 32 - 1 : Nat) ^^^ m) ||| (m &&& h) = ((2 ^ 32 - 1 : Nat) ^^^ m) ||| h := by
    apply Nat.eq_of_testBit_eq
    intro i
    simp only [Nat.testBit_or, Nat.testBit_and, Nat.testBit_xor, Nat.testBit_two_pow_sub_one]
    cases hmb : m.testBit i with
    | true => simp [testBit_true_lt (lt_u32 hm) hmb]
    | false =>
      cases hhb : h.testBit i with
      | false => simp
      | true => simp [testBit_true_lt (lt_u32 hh) hhb]
  rw [← f2, lor_eq_add_of_land_eq_zero f1]

theorem broadcastA_eq (h m : Nat) (hh : h < 4294967296) (hm : m < 4294967296) :
    ipcalcA.Broadcast ⟨h, m⟩ = (TwoFiveFive ^^^ m) ||| h := by
  show add32 (sub32 TwoFiveFive m) (ipcalcA.Network ⟨h, m⟩) = (TwoFiveFive ^^^ m) ||| h
  rw [networkA_eq h m hh hm]
  have hx : TwoFiveFive ^^^ m = 2 ^ 32 - 1 - m := by
    rw [show TwoFiveFive = 2 ^ 32 - 1 by norm_num [TwoFiveFive]]
    exact xor_allones (lt_u32 hm)
  have hkey : ((2 ^ 32 - 1 : Nat) ^^^ m) ||| h = ((2 ^ 32 - 1 : Nat) ^^^ m) + (m &&& h) :=
    compl_lor_eq h m hh hm
  have hx' : ((2 : Nat) ^ 32 - 1) ^^^ m = 2 ^ 32 - 1 - m := xor_allones (lt_u32 hm)
  rw [show TwoFiveFive = 2 ^ 32 - 1 by norm_num [TwoFiveFive]] at hx ⊢
  rw [hkey, hx']
  have hand : m &&& h ≤ m := Nat.and_le_left
  have h32 : (2 : Nat) ^ 32 = 4294967296 := by norm_num
  simp only [sub32, add32]
  omega

theorem land_two_pow_eq_zero_iff (mask n : Nat) :
    mask &&& (1 <<< n) = 0 ↔ mask.testBit n = false := by
  rw [Nat.shiftLeft_eq, one_mul, Nat.and_two_pow]
  have hpos := Nat.two_pow_pos n
  cases hb : mask.testBit n <;> simp <;> omega

theorem isContiguousGo_succ_true {n steps : Nat} {mask : Nat} {fb : Bool}
    (hb : mask.testBit n = true) :
    isContiguousGo mask fb n (steps + 1) = isContiguousGo mask true (n + 1) steps := by
  have hnz : ¬ mask &&& (1 <<< n) = 0 := by
    rw [land_two_pow_eq_zero_iff, hb]
    simp
  simp [isContiguousGo, hnz]

theorem isContiguousGo_succ_seen {mask n steps : Nat} (hb : mask.testBit n = false) :
    isContiguousGo mask true n (steps + 1) = false := by
  have hz : mask &&& (1 <<< n) = 0 := (land_two_pow_eq_zero_iff mask n).mpr hb
  simp [isContiguousGo, hz]

theorem isContiguousGo_succ_unseen {mask n steps : Nat} (hb : mask.testBit n = false) :
    isContiguousGo mask false n (steps + 1) = isContiguousGo mask false (n + 1) steps := by
  have hz : mask &&& (1 <<< n) = 0 := (land_two_pow_eq_zero_iff mask n).mpr hb
  simp [isContiguousGo, hz]

theorem isContiguousGo_iff (mask : Nat) :
    ∀ steps n f, n + steps = 32 →
      (isContiguousGo mask f n steps = true ↔
        ∀ j, n ≤ j → j < 32 →
          ((f = true ∨ ∃ i, n ≤ i ∧ i < j ∧ mask.testBit i = true) →
            mask.testBit j = true)) := by
  intro steps
  induction steps with
  | zero =>
    intro n f hn
    constructor
    · intro _ j hj1 hj2 _
      omega
    · intro _
      rfl
  | succ steps ihs =>
    intro n f hn
    cases hb : mask.testBit n with
    | true =>
      rw [isContiguousGo_succ_true hb, ihs (n + 1) true (by omega)]
      constructor
      · intro hall j hj1 hj2 _
        rcases eq_or_lt_of_le hj1 with he | hlt
        · rw [← he]; exact hb
        · exact hall j (by omega) hj2 (Or.inl rfl)
      · intro hall j hj1 hj2 _
        exact hall j (by omega) hj2 (Or.inr ⟨n, by omega, by omega, hb⟩)
    | false =>
      cases f with
      | true =>
        rw [isContiguousGo_succ_seen hb]
        constructor
        · intro h
          exact Bool.noConfusion h
        · intro hall
          have := hall n (le_refl n) (by omega) (Or.inl rfl)
          rw [hb] at this
          exact Bool.noConfusion this
      | false =>
        rw [isContiguousGo_succ_unseen hb, ihs (n + 1) false (by omega)]
        constructor
        · intro hall j hj1 hj2 hant
          rcases hant with hf | ⟨i, hi1, hi2, hib⟩
          · exact Bool.noConfusion hf
          · rcases eq_or_lt_of_le hi1 with he | hlt
            · rw [← he, hb] at hib
              exact Bool.noConfusion hib
            · exact hall j (by omega) hj2 (Or.inr ⟨i, by omega, hi2, hib⟩)
        · intro hall j hj1 hj2 hant
          rcases hant with hf | ⟨i, hi1, hi2, hib⟩
          · exact Bool.noConfusion hf
          · exact hall j (by omega) hj2 (Or.inr ⟨i, by omega, hi2, hib⟩)

/-- A mask accepted by the `IsContiguous` loop is a prefix mask
`2^32 - 2^c`. -/
theorem isContiguous_shape {a m : Nat} (hm : m < 4294967296)
    (hc : IsContiguous ⟨a, m⟩ = true) : ∃ c, c ≤ 32 ∧ m = 2 ^ 32 - 2 ^ c := by
  have hchar := (isContiguousGo_iff m 32 0 false (by omega)).mp hc
  by_cases hz : m = 0
  · exact ⟨32, le_refl 32, by omega⟩
  · have hex : ∃ i, m.testBit i = true := by
      obtain ⟨i, hi⟩ := Nat.ne_zero_implies_bit_true hz
      exact ⟨i, hi⟩
    have hfs := Nat.find_spec hex
    set i0 := Nat.find hex with hi0
    have hi032 : i0 < 32 := testBit_true_lt (lt_u32 hm) hfs
    refine ⟨i0, by omega, ?_⟩
    apply Nat.eq_of_testBit_eq
    intro j
    rw [testBit_highMask (by omega)]
    by_cases hj32 : j < 32
    · by_cases hj0 : i0 ≤ j
      · rcases eq_or_lt_of_le hj0 with he | hlt
        · subst he
          simp [hfs, hi032]
        · have : m.testBit j = true :=
            hchar j (by omega) hj32 (Or.inr ⟨i0, by omega, hlt, hfs⟩)
          simp [this, hj0, hj32]
      · have : ¬ m.testBit j = true := Nat.find_min hex (by omega)
        simp only [Bool.not_eq_true] at this
        simp [this, hj0]
    · have : m.testBit j = false := Nat.testBit_lt_two_pow
        (lt_of_lt_of_le (lt_u32 hm) (Nat.pow_le_pow_right (by norm_num) (by omega)))
      simp [this, hj32]

theorem maskToStringGo_pow :
    ∀ fuel c i, i + fuel = 32 → c ≤ fuel →
      maskToStringGo (2 ^ 32 - 2 ^ c) i fuel = Itoa (32 - i - c) := by
  intro fuel
  induction fuel with
  | zero =>
    intro c i hi hc
    have hc0 : c = 0 := by omega
    have hi32 : i = 32 := by omega
    subst hc0; subst hi32
    decide
  | succ fuel ih =>
    intro c i hi hc
    rcases Nat.eq_zero_or_pos c with hc0 | hc1
    · subst hc0
      have hall : (2 : Nat) ^ 32 - 2 ^ 0 = TwoFiveFive := by norm_num [TwoFiveFive]
      simp only [maskToStringGo, hall, if_pos]
      rw [Nat.sub_zero]
    · have hc32 : c ≤ 32 := by omega
      have hne : (2 : Nat) ^ 32 - 2 ^ c ≠ TwoFiveFive := by
        have h2 : (2 : Nat) ≤ 2 ^ c := by
          calc (2 : Nat) = 2 ^ 1 := by norm_num
            _ ≤ 2 ^ c := Nat.pow_le_pow_right (by norm_num) hc1
        have h2c : (2 : Nat) ^ c ≤ 2 ^ 32 := Nat.pow_le_pow_right (by norm_num) hc32
        have h32 : (2 : Nat) ^ 32 = 4294967296 := by norm_num
        simp only [TwoFiveFive]
        omega
      simp only [maskToStringGo, if_neg hne]
      rw [maskStep_pow hc1 hc32]
      rw [ih (c - 1) (i + 1) (by omega) (by omega)]
      congr 1
      omega

theorem splitOnChar_ne_nil (c : Char) : ∀ l : Str, splitOnChar c l ≠ [] := by
  intro l
  cases l with
  | nil => simp [splitOnChar]
  | cons x xs =>
    simp only [splitOnChar]
    cases h : splitOnChar c xs with
    | nil => simp
    | cons y ys =>
      by_cases hx : x = c <;> simp [hx]

theorem splitOnChar_of_not_mem {c : Char} : ∀ {l : Str}, c ∉ l → splitOnChar c l = [l] := by
  intro l
  induction l with
  | nil => intro _; rfl
  | cons x xs ih =>
    intro h
    have hx : x ≠ c := fun he => h (by rw [he]; exact List.mem_cons_self _ _)
    have hxs : c ∉ xs := fun hm => h (List.mem_cons_of_mem _ hm)
    simp only [splitOnChar, ih hxs]
    simp [hx]

theorem splitOnChar_append {c : Char} :
    ∀ {a : Str} (rest : Str), c ∉ a →
      splitOnChar c (a ++ c :: rest) = a :: splitOnChar c rest := by
  intro a
  induction a with
  | nil =>
    intro rest _
    simp only [List.nil_append, splitOnChar]
    cases h : splitOnChar c rest with
    | nil => exact absurd h (splitOnChar_ne_nil c rest)
    | cons y ys => simp
  | cons x xs ih =>
    intro rest h
    have hx : x ≠ c := fun he => h (by rw [he]; exact List.mem_cons_self _ _)
    have hxs : c ∉ xs := fun hm => h (List.mem_cons_of_mem _ hm)
    simp only [List.cons_append, splitOnChar, List.append_eq]
    rw [ih rest hxs]
    simp [hx]

theorem parseOctet_Itoa : ∀ n, n < 256 → parseOctet (Itoa n) = .ok n := by decide

theorem Itoa_no_dot_slash : ∀ n, n < 256 → '.' ∉ Itoa n ∧ '/' ∉ Itoa n := by decide

theorem stringToMask_Itoa : ∀ p, p < 33 → stringToMask (Itoa p) = .ok (2 ^ 32 - 2 ^ (32 - p)) := by
  decide

theorem octets_recombine {a : Nat} (ha : a < 4294967296) :
    ((a >>> 24) % 256) <<< 24 ||| ((a >>> 16) % 256) <<< 16 ||| ((a >>> 8) % 256) <<< 8 |||
      (a % 256) = a := by
  have hd24 : a >>> 24 = a / 16777216 := by rw [Nat.shiftRight_eq_div_pow]
  have hd16 : a >>> 16 = a / 65536 := by rw [Nat.shiftRight_eq_div_pow]
  have hd8 : a >>> 8 = a / 256 := by rw [Nat.shiftRight_eq_div_pow]
  rw [hd24, hd16, hd8]
  generalize h0 : a / 16777216 % 256 = o0
  generalize h1 : a / 65536 % 256 = o1
  generalize h2 : a / 256 % 256 = o2
  generalize h3 : a % 256 = o3
  have hb1 : o1 < 256 := by omega
  have hb2 : o2 < 256 := by omega
  have hb3 : o3 < 256 := by omega
  have s1 : o0 <<< 24 ||| o1 <<< 16 = 2 ^ 24 * o0 + o1 * 2 ^ 16 := by
    have hlt : o1 * 2 ^ 16 < 2 ^ 24 := by norm_num; omega
    rw [Nat.shiftLeft_eq, Nat.shiftLeft_eq, Nat.mul_comm o0 (2 ^ 24),
      ← Nat.mul_add_lt_is_or hlt o0]
  have s2 : (o0 <<< 24 ||| o1 <<< 16) ||| o2 <<< 8 = 2 ^ 16 * (256 * o0 + o1) + o2 * 2 ^ 8 := by
    have hlt : o2 * 2 ^ 8 < 2 ^ 16 := by norm_num; omega
    rw [s1, show (2 : Nat) ^ 24 * o0 + o1 * 2 ^ 16 = 2 ^ 16 * (256 * o0 + o1) by ring,
      Nat.shiftLeft_eq, ← Nat.mul_add_lt_is_or hlt (256 * o0 + o1)]
  have s3 : ((o0 <<< 24 ||| o1 <<< 16) ||| o2 <<< 8) ||| o3 =
      2 ^ 8 * (256 * (256 * o0 + o1) + o2) + o3 := by
    have hlt : o3 < 2 ^ 8 := by norm_num; omega
    rw [s2, show (2 : Nat) ^ 16 * (256 * o0 + o1) + o2 * 2 ^ 8 =
      2 ^ 8 * (256 * (256 * o0 + o1) + o2) by ring,
      ← Nat.mul_add_lt_is_or hlt (256 * (256 * o0 + o1) + o2)]
  rw [s3, show (2 : Nat) ^ 8 = 256 by norm_num]
  omega

theorem addrToString_no_slash (a : Nat) : '/' ∉ addrToString a := by
  have h0 := (Itoa_no_dot_slash _ (Nat.mod_lt (a >>> 24) (by norm_num))).2
  have h1 := (Itoa_no_dot_slash _ (Nat.mod_lt (a >>> 16) (by norm_num))).2
  have h2 := (Itoa_no_dot_slash _ (Nat.mod_lt (a >>> 8) (by norm_num))).2
  have h3 := (Itoa_no_dot_slash _ (Nat.mod_lt a (by norm_num))).2
  simp [addrToString, h0, h1, h2, h3]

theorem splitOnChar_addrToString (a : Nat) :
    splitOnChar '.' (addrToString a) =
      [Itoa ((a >>> 24) % 256), Itoa ((a >>> 16) % 256), Itoa ((a >>> 8) % 256),
        Itoa (a % 256)] := by
  have h0 := (Itoa_no_dot_slash _ (Nat.mod_lt (a >>> 24) (by norm_num))).1
  have h1 := (Itoa_no_dot_slash _ (Nat.mod_lt (a >>> 16) (by norm_num))).1
  have h2 := (Itoa_no_dot_slash _ (Nat.mod_lt (a >>> 8) (by norm_num))).1
  have h3 := (Itoa_no_dot_slash _ (Nat.mod_lt a (by norm_num))).1
  simp only [addrToString, List.cons_append, List.append_assoc]
  rw [splitOnChar_append _ h0, splitOnChar_append _ h1, splitOnChar_append _ h2,
    splitOnChar_of_not_mem h3]

theorem dotted_addrToString {a : Nat} (ha : a < 4294967296) :
    DottedDecimalToUint32 (addrToString a) = .ok a := by
  have p0 := parseOctet_Itoa _ (Nat.mod_lt (a >>> 24) (by norm_num))
  have p1 := parseOctet_Itoa _ (Nat.mod_lt (a >>> 16) (by norm_num))
  have p2 := parseOctet_Itoa _ (Nat.mod_lt (a >>> 8) (by norm_num))
  have p3 := parseOctet_Itoa _ (Nat.mod_lt a (by norm_num))
  simp only [DottedDecimalToUint32, splitOnChar_addrToString a, p0, p1, p2, p3]
  rw [octets_recombine ha]

/-- Full render-then-parse round trip for prefix masks. -/
theorem ToCidr_roundTrip (i : Ipv4) (ha : i.Addr < 4294967296) (hm : i.Mask < 4294967296)
    (hc : IsContiguous i = true) :
    ∃ s, ToCidr i = .ok s ∧ CidrToIpv4 s = .ok i := by
  obtain ⟨a, m⟩ := i
  simp only at ha hm
  obtain ⟨c, hc32, hme⟩ := isContiguous_shape hm hc
  subst hme
  refine ⟨addrToString a ++ '/' :: maskToString (2 ^ 32 - 2 ^ c), ?_, ?_⟩
  · show (if IsContiguous ⟨a, 2 ^ 32 - 2 ^ c⟩ = false then _ else _) = _
    rw [if_neg (by rw [hc]; simp)]
  · have hmts : maskToString (2 ^ 32 - 2 ^ c) = Itoa (32 - c) :=
      maskToStringGo_pow 32 c 0 (by omega) hc32
    have hms : '/' ∉ maskToString (2 ^ 32 - 2 ^ c) := by
      rw [hmts]
      exact (Itoa_no_dot_slash (32 - c) (by omega)).2
    have hsplit : splitOnChar '/' (addrToString a ++ '/' :: maskToString (2 ^ 32 - 2 ^ c)) =
        [addrToString a, maskToString (2 ^ 32 - 2 ^ c)] := by
      rw [splitOnChar_append _ (addrToString_no_slash a), splitOnChar_of_not_mem hms]
    have h32c : 32 - (32 - c) = c := by omega
    have hstm : stringToMask (maskToString (2 ^ 32 - 2 ^ c)) = .ok (2 ^ 32 - 2 ^ c) := by
      rw [hmts, stringToMask_Itoa (32 - c) (by omega), h32c]
    have hstm2 : stringToMask (maskToString (4294967296 - 2 ^ c)) =
        Except.ok (4294967296 - 2 ^ c) := by
      have he : (4294967296 : Nat) - 2 ^ c = 2 ^ 32 - 2 ^ c := by norm_num
      rw [he]
      exact hstm
    simp only [CidrToIpv4, hsplit, List.headD, dotted_addrToString ha, List.length_cons,
      List.length_nil, List.getD, List.get?, if_true, Option.getD_some]
    rw [hstm]

theorem parseOctet_ok_iff (p : Str) :
    (∃ b, parseOctet p = .ok b) ↔ (∃ n : Int, Atoi p = some n ∧ 0 ≤ n ∧ n ≤ 255) := by
  cases hA : Atoi p with
  | none =>
    simp only [parseOctet, hA]
    constructor
    · rintro ⟨b, hb⟩
      exact Except.noConfusion hb
    · rintro ⟨n, hn, _⟩
      exact Option.noConfusion hn
  | some n =>
    simp only [parseOctet, hA]
    constructor
    · rintro ⟨b, hb⟩
      by_cases hr : n < 0 ∨ n > 255
      · rw [if_pos hr] at hb
        exact Except.noConfusion hb
      · exact ⟨n, rfl, by omega, by omega⟩
    · rintro ⟨n', hn', h0, h255⟩
      have he : n = n' := Option.some.inj hn'
      subst he
      exact ⟨n.toNat % 256, by rw [if_neg (by omega)]⟩

theorem stringToMask_ok_iff (s : Str) :
    (∃ m, stringToMask s = .ok m) ↔ (∃ n : Int, Atoi s = some n ∧ 0 ≤ n ∧ n ≤ 32) := by
  cases hA : Atoi s with
  | none =>
    simp only [stringToMask, hA]
    constructor
    · rintro ⟨b, hb⟩
      exact Except.noConfusion hb
    · rintro ⟨n, hn, _⟩
      exact Option.noConfusion hn
  | some n =>
    simp only [stringToMask, hA]
    constructor
    · rintro ⟨b, hb⟩
      by_cases hr : n < 0 ∨ n > 32
      · rw [if_pos hr] at hb
        exact Except.noConfusion hb
      · exact ⟨n, rfl, by omega, by omega⟩
    · rintro ⟨n', hn', h0, h32⟩
      have he : n = n' := Option.some.inj hn'
      subst he
      exact ⟨_, by rw [if_neg (by omega)]⟩

theorem DottedDecimal_ok_iff (s : Str) :
    (∃ v, DottedDecimalToUint32 s = .ok v) ↔
      ((splitOnChar '.' s).length = 4 ∧
        ∀ p ∈ splitOnChar '.' s, ∃ n : Int, Atoi p = some n ∧ 0 ≤ n ∧ n ≤ 255) := by
  rcases hsp : splitOnChar '.' s with _ | ⟨o0, _ | ⟨o1, _ | ⟨o2, _ | ⟨o3, _ | ⟨o4, r⟩⟩⟩⟩⟩
  · simp [DottedDecimalToUint32, hsp]
  · simp [DottedDecimalToUint32, hsp]
  · simp [DottedDecimalToUint32, hsp]
  · simp [DottedDecimalToUint32, hsp]
  · have e0 := parseOctet_ok_iff o0
    have e1 := parseOctet_ok_iff o1
    have e2 := parseOctet_ok_iff o2
    have e3 := parseOctet_ok_iff o3
    simp only [DottedDecimalToUint32, hsp]
    constructor
    · rintro ⟨v, hv⟩
      refine ⟨rfl, ?_⟩
      cases h0 : parseOctet o0 with
      | error ea => rw [h0] at hv; simp at hv
      | ok b0 =>
        cases h1 : parseOctet o1 with
        | error ea => rw [h0, h1] at hv; simp at hv
        | ok b1 =>
          cases h2 : parseOctet o2 with
          | error ea => rw [h0, h1, h2] at hv; simp at hv
          | ok b2 =>
            cases h3 : parseOctet o3 with
            | error ea => rw [h0, h1, h2, h3] at hv; simp at hv
            | ok b3 =>
              intro p hp
              rcases List.mem_cons.mp hp with rfl | hp
              · exact e0.mp ⟨b0, h0⟩
              rcases List.mem_cons.mp hp with rfl | hp
              · exact e1.mp ⟨b1, h1⟩
              rcases List.mem_cons.mp hp with rfl | hp
              · exact e2.mp ⟨b2, h2⟩
              rcases List.mem_cons.mp hp with rfl | hp
              · exact e3.mp ⟨b3, h3⟩
              · exact absurd hp (List.not_mem_nil p)
    · rintro ⟨-, hall⟩
      obtain ⟨b0, h0⟩ := e0.mpr (hall o0 (by simp))
      obtain ⟨b1, h1⟩ := e1.mpr (hall o1 (by simp))
      obtain ⟨b2, h2⟩ := e2.mpr (hall o2 (by simp))
      obtain ⟨b3, h3⟩ := e3.mpr (hall o3 (by simp))
      exact ⟨b0 <<< 24 ||| b1 <<< 16 ||| b2 <<< 8 ||| b3, by rw [h0, h1, h2, h3]⟩
  · simp [DottedDecimalToUint32, hsp]

theorem CidrToIpv4_ok_iff (s : Str) :
    (∃ i, CidrToIpv4 s = .ok i) ↔
      ((∃ v, DottedDecimalToUint32 ((splitOnChar '/' s).headD []) = .ok v) ∧
        ((splitOnChar '/' s).length = 2 →
          ∃ m, stringToMask ((splitOnChar '/' s).getD 1 []) = .ok m)) := by
  simp only [CidrToIpv4]
  cases hD : DottedDecimalToUint32 ((splitOnChar '/' s).headD []) with
  | error e => simp [hD]
  | ok v =>
    simp only [hD]
    by_cases hl : (splitOnChar '/' s).length = 2
    · simp only [hl, if_true]
      cases hM : stringToMask ((splitOnChar '/' s).getD 1 []) with
      | error e => simp [hM]
      | ok m => simp [hM]
    · simp [hl]

theorem digits_count_slash {o : Str} (hd : ∀ c ∈ o, isDigitChar c = true) :
    List.count '/' o = 0 := by
  rw [List.count_eq_zero]
  intro hm
  exact absurd (hd '/' hm) (by decide)

theorem specDotted_count_slash {s : Str} (h : SpecDotted s) : List.count '/' s = 0 := by
  obtain ⟨o0, o1, o2, o3, h0, h1, h2, h3, rfl⟩ := h
  simp [List.count_append, List.count_cons, digits_count_slash h0.2.1,
    digits_count_slash h1.2.1, digits_count_slash h2.2.1, digits_count_slash h3.2.1]

theorem not_specCidr_counterexample : ¬ SpecCidr ("1.2.3.4/5/6".toList) := by
  intro h
  have hc2 : List.count '/' ("1.2.3.4/5/6".toList) = 2 := by decide
  rcases h with hd | ⟨a, p, ha, hp, he⟩
  · have := specDotted_count_slash hd
    omega
  · have h1 : List.count '/' (a ++ '/' :: p) = 1 := by
      simp [List.count_append, List.count_cons, specDotted_count_slash ha,
        digits_count_slash hp.2.1]
    rw [he] at hc2
    omega

theorem alignMask_done (addr m : Nat) (ha : addr < 4294967296) (hm : m < 4294967296)
    (hal : m &&& addr = addr) : alignMask addr m ha hm = m := by
  rw [alignMask, if_pos hal]

theorem alignMask_step (addr m : Nat) (ha : addr < 4294967296) (hm : m < 4294967296)
    (hne : ¬ (m &&& addr = addr)) :
    alignMask addr m ha hm = alignMask addr (maskStep m) ha (by simp only [maskStep]; omega) := by
  rw [alignMask, if_neg hne]

theorem subnetLo_eval_0_2 : subnetLo 0 2 (by norm_num) = ⟨0, 4294967292⟩ := by
  simp only [subnetLo]
  rw [alignMask_congr 0 (by norm_num) _ 4294967292 (findCand_lt _) (by decide) (by decide)]
  rw [alignMask_done _ _ _ _ (by decide)]

theorem subnetLo_eval_4_6 : subnetLo 4 6 (by norm_num) = ⟨4, 4294967292⟩ := by
  simp only [subnetLo]
  rw [alignMask_congr 4 (by norm_num) _ 4294967292 (findCand_lt _) (by decide) (by decide)]
  rw [alignMask_done _ _ _ _ (by decide)]

theorem subnetLo_eval_2_3 : subnetLo 2 3 (by norm_num) = ⟨2, 4294967294⟩ := by
  simp only [subnetLo]
  rw [alignMask_congr 2 (by norm_num) _ 4294967294 (findCand_lt _) (by decide) (by decide)]
  rw [alignMask_done _ _ _ _ (by decide)]

theorem subnetLo_eval_1_3 : subnetLo 1 3 (by norm_num) = ⟨1, 4294967295⟩ := by
  simp only [subnetLo]
  rw [alignMask_congr 1 (by norm_num) _ 4294967292 (findCand_lt _) (by decide) (by decide)]
  rw [alignMask_step _ _ _ _ (by decide)]
  rw [alignMask_congr 1 (by norm_num) _ 4294967294 _ (by norm_num) (by decide)]
  rw [alignMask_step _ _ _ _ (by decide)]
  rw [alignMask_congr 1 (by norm_num) _ 4294967295 _ (by norm_num) (by decide)]
  rw [alignMask_done _ _ _ _ (by decide)]

theorem subnet_eval_0_2 : Subnet 0 2 (by norm_num) (by norm_num) = .error "Internal Error" := by
  rw [Subnet]
  norm_num
  simp only [subnetLo_eval_0_2, show Broadcast ⟨0, 4294967292⟩ = 3 from by decide]
  norm_num

theorem subnet_eval_4_6 : Subnet 4 6 (by norm_num) (by norm_num) = .error "Internal Error" := by
  rw [Subnet]
  norm_num
  simp only [subnetLo_eval_4_6, show Broadcast ⟨4, 4294967292⟩ = 7 from by decide]
  norm_num

theorem subnet_eval_2_3 : Subnet 2 3 (by norm_num) (by norm_num) = .ok [⟨2, 4294967294⟩] := by
  rw [Subnet]
  norm_num
  simp only [subnetLo_eval_2_3, show Broadcast ⟨2, 4294967294⟩ = 3 from by decide]
  norm_num

theorem subnet_eval_1_3 :
    Subnet 1 3 (by norm_num) (by norm_num) = .ok [⟨1, 4294967295⟩, ⟨2, 4294967294⟩] := by
  rw [Subnet]
  norm_num
  simp only [subnetLo_eval_1_3, show Broadcast ⟨1, 4294967295⟩ = 1 from by decide]
  norm_num
  rw [Subnet_congr 3 (by norm_num) _ 2 _ (by norm_num) (by decide)]
  rw [subnet_eval_2_3]

theorem overlap_eval :
    Overlap ⟨0, 4294967292⟩ ⟨0, 4294967293⟩ (by norm_num) (by norm_num) (by norm_num)
      (by norm_num) = [] := by
  rw [Overlap]
  norm_num
  rw [overlapRest]
  simp only [show Broadcast ⟨0, 4294967293⟩ = 2 from by decide,
    show Broadcast ⟨0, 4294967292⟩ = 3 from by decide]
  norm_num
  rw [subnet_eval_0_2]

end ipcalc

open ipcalc

/-- C1: the claim states that for every pair `start <= stop` of 32-bit
bounds, `Subnet start stop` succeeds and returns a minimal exact cover.
It fails: for `start = 0`, `stop = 2` (with `0 <= 2`) the candidate mask
derived from `start XOR stop` gives the block `[0, 3]`, which is already
aligned to `start`, so its broadcast `3` overshoots `stop = 2` and
`Subnet` returns the error "Internal Error" instead of the cover
`[0/31, 2/32]`. -/
theorem C1_subnet_not_total :
    (0 : Nat) ≤ 2 ∧
      Subnet 0 2 (by norm_num) (by norm_num) = .error "Internal Error" :=
  ⟨by norm_num, subnet_eval_0_2⟩

/-- C2: the claim states that the overshoot branch of `Subnet` (the one
returning "Internal Error" when the emitted block's broadcast strictly
exceeds `stop`) is unreachable.  It is reachable: on `start = 4`,
`stop = 6` the first emitted block is `[4, 7]`, whose broadcast `7`
exceeds `stop = 6`, and `Subnet` returns that very error. -/
theorem C2_overshoot_reachable :
    (4 : Nat) ≤ 6 ∧
      Subnet 4 6 (by norm_num) (by norm_num) = .error "Internal Error" :=
  ⟨by norm_num, subnet_eval_4_6⟩

/-- C3: the claim states that both containment tests return true iff
`a.address >= b.address` and `a.broadcast() <= b.broadcast()`.  The
`Host`/`Mask` variant `IsInNet` does satisfy that contract (first
conjunct), but the `Addr`/`Mask` variant `IsIn` compares raw mask values
instead of broadcasts and fails it: for `i = (8, /29)` and
`n = (0, /28)` we have `i.Addr >= n.Addr` and
`Broadcast i = 15 <= 15 = Broadcast n`, yet `IsIn i n = false` because
`i.Mask = 4294967288 > 4294967280 = n.Mask`. -/
theorem C3_containment_mask_compare :
    (∀ n1 n2 : ipcalcA.Ipv4,
        ipcalcA.IsInNet n1 n2 = true ↔
          n1.Host ≥ n2.Host ∧ ipcalcA.Broadcast n1 ≤ ipcalcA.Broadcast n2) ∧
      IsIn ⟨8, 4294967288⟩ ⟨0, 4294967280⟩ = false ∧
      (Ipv4.mk 8 4294967288).Addr ≥ (Ipv4.mk 0 4294967280).Addr ∧
      Broadcast ⟨8, 4294967288⟩ ≤ Broadcast ⟨0, 4294967280⟩ := by
  refine ⟨fun n1 n2 => ?_, by decide, by decide, by decide⟩
  simp [ipcalcA.IsInNet]

/-- C4: the claim states that `Overlap` returns exactly the aligned
blocks covering the intersection of the two `[network, broadcast]`
intervals, in particular a nonempty cover whenever the intervals
intersect.  It fails: for `n1 = (0, 4294967292)` (interval `[0, 3]`) and
`n2 = (0, 4294967293)` (interval `[0, 2]`) the intervals intersect in
`[0, 2]` (second conjunct), yet `Overlap` calls `Subnet 0 2`, which
fails with "Internal Error", and the error is swallowed into the empty
sequence. -/
theorem C4_overlap_misses_intersection :
    Overlap ⟨0, 4294967292⟩ ⟨0, 4294967293⟩ (by norm_num) (by norm_num)
        (by norm_num) (by norm_num) = [] ∧
      max (Network ⟨0, 4294967292⟩) (Network ⟨0, 4294967293⟩) ≤
        min (Broadcast ⟨0, 4294967292⟩) (Broadcast ⟨0, 4294967293⟩) :=
  ⟨overlap_eval, by decide⟩

/-- C5: the claim states that each update `mask = 0x80000000 + (mask >> 1)`
of the alignment loop only ever widens the block (makes the mask less
restrictive) relative to the step-3 candidate.  The opposite holds: the
update adds a leading one-bit, so it strictly increases the mask and
strictly narrows the block.  Concretely, for `start = 1`, `stop = 3` the
candidate is `findCand (1 XOR 3) = 4294967292` (the block `[0, 3]`); the
loop runs because `Network (1, 4294967292) = 0 /= 1`, one update yields
the strictly larger mask `4294967294`, shrinking the block's broadcast
from `3` to `1`, and the loop's result is the still larger mask
`4294967295` (the one-address block `[1, 1]`). -/
theorem C5_alignment_counterexample :
    findCand (1 ^^^ 3) = 4294967292 ∧
      Network ⟨1, 4294967292⟩ ≠ 1 ∧
      maskStep 4294967292 = 4294967294 ∧
      ¬ maskStep 4294967292 ≤ 4294967292 ∧
      Broadcast ⟨1, 4294967294⟩ < Broadcast ⟨1, 4294967292⟩ ∧
      alignMask 1 4294967292 (by norm_num) (by norm_num) = 4294967295 := by
  refine ⟨by decide, by decide, by decide, by decide, by decide, ?_⟩
  rw [alignMask_step _ _ _ _ (by decide)]
  rw [alignMask_congr 1 (by norm_num) _ 4294967294 _ (by norm_num) (by decide)]
  rw [alignMask_step _ _ _ _ (by decide)]
  rw [alignMask_congr 1 (by norm_num) _ 4294967295 _ (by norm_num) (by decide)]
  rw [alignMask_done _ _ _ _ (by decide)]

/-- C5 (amended): what the alignment loop actually guarantees, for every
address and every starting mask below `2^32`: the loop result is at
least the starting mask (each update is strictly increasing, i.e. the
block only ever narrows, never widens — last conjunct), on exit
`network(start, mask) = start` holds, and the loop terminates after at
most 32 iterations. -/
theorem C5_alignment_amended (addr m : Nat) (ha : addr < 4294967296)
    (hm : m < 4294967296) :
    m ≤ alignMask addr m ha hm ∧
      (alignMask addr m ha hm) &&& addr = addr ∧
      alignCount addr m ha hm ≤ 32 ∧
      (m &&& addr ≠ addr → m < maskStep m) :=
  ⟨alignMask_ge addr ha (4294967296 - m) m hm rfl,
    alignMask_land addr ha (4294967296 - m) m hm rfl,
    alignCount_le_32 addr m ha hm,
    fun hne => (maskStep_gt ha hm hne).1⟩

/-- C5 (amended) at the concrete input `addr = 1`, `m = 4294967292`. -/
theorem C5_alignment_amended_witness :
    (1 : Nat) < 4294967296 ∧ (4294967292 : Nat) < 4294967296 ∧
      (4294967292 ≤ alignMask 1 4294967292 (by norm_num) (by norm_num) ∧
        (alignMask 1 4294967292 (by norm_num) (by norm_num)) &&& 1 = 1 ∧
        alignCount 1 4294967292 (by norm_num) (by norm_num) ≤ 32 ∧
        (4294967292 &&& 1 ≠ 1 → 4294967292 < maskStep 4294967292)) :=
  ⟨by norm_num, by norm_num,
    C5_alignment_amended 1 4294967292 (by norm_num) (by norm_num)⟩

/-- C6: for every `Ipv4` with in-range fields and a contiguous mask,
`ToCidr` succeeds and feeding its output to `CidrToIpv4` reproduces the
original address/mask pair exactly; in particular the string
"10.244.170.8/28" parses to `(183806472, 4294967280)` and rendering
that value returns the same string. -/
theorem C6_cidr_round_trip (i : Ipv4) (ha : i.Addr < 4294967296)
    (hm : i.Mask < 4294967296) (hc : IsContiguous i = true) :
    (∃ s, ToCidr i = .ok s ∧ CidrToIpv4 s = .ok i) ∧
      CidrToIpv4 ("10.244.170.8/28".toList) = .ok ⟨183806472, 4294967280⟩ ∧
      ToCidr ⟨183806472, 4294967280⟩ = .ok ("10.244.170.8/28".toList) :=
  ⟨ToCidr_roundTrip i ha hm hc, by decide, by decide⟩

/-- C6 at the concrete input `i = (183806472, 4294967280)`. -/
theorem C6_cidr_round_trip_witness :
    (183806472 : Nat) < 4294967296 ∧ (4294967280 : Nat) < 4294967296 ∧
      IsContiguous ⟨183806472, 4294967280⟩ = true ∧
      ((∃ s, ToCidr ⟨183806472, 4294967280⟩ = .ok s ∧
          CidrToIpv4 s = .ok ⟨183806472, 4294967280⟩) ∧
        CidrToIpv4 ("10.244.170.8/28".toList) = .ok ⟨183806472, 4294967280⟩ ∧
        ToCidr ⟨183806472, 4294967280⟩ = .ok ("10.244.170.8/28".toList)) :=
  ⟨by norm_num, by norm_num, by decide,
    C6_cidr_round_trip ⟨183806472, 4294967280⟩ (by norm_num) (by norm_num)
      (by decide)⟩

/-- C7: for every host `h` and mask `m` below `2^32` (and any cached
field values), the arithmetic derived addresses coincide with the
bitwise reference: the `Host`/`Mask` variant's
`Network = Mask + Host - (Mask | Host)` equals `Mask & Addr`, its
`Broadcast = TwoFiveFive - Mask + Network` equals `(^Mask) | Addr`, and
the cached-field `main.go` setters `setNetwork`/`setBroadcast` store
those same bitwise values, all in wrapping 32-bit arithmetic. -/
theorem C7_arith_matches_bitwise (h m nw bc : Nat) (hh : h < 4294967296)
    (hm : m < 4294967296) :
    ipcalcA.Network ⟨h, m⟩ = Network ⟨h, m⟩ ∧
      ipcalcA.Broadcast ⟨h, m⟩ = Broadcast ⟨h, m⟩ ∧
      (maingo.setNetwork ⟨h, m, nw, bc⟩).Network = Network ⟨h, m⟩ ∧
      (maingo.setBroadcast (maingo.setNetwork ⟨h, m, nw, bc⟩)).Broadcast =
        Broadcast ⟨h, m⟩ := by
  have hn := networkA_eq h m hh hm
  have hb := broadcastA_eq h m hh hm
  have hnet : Network ⟨h, m⟩ = m &&& h := rfl
  have hbro : Broadcast ⟨h, m⟩ = (TwoFiveFive ^^^ m) ||| h := rfl
  refine ⟨by rw [hnet]; exact hn, by rw [hbro]; exact hb, ?_, ?_⟩
  · show ipcalcA.Network ⟨h, m⟩ = Network ⟨h, m⟩
    rw [hnet]; exact hn
  · show ipcalcA.Broadcast ⟨h, m⟩ = Broadcast ⟨h, m⟩
    rw [hbro]; exact hb

/-- C7 at the concrete input `h = 183806472`, `m = 4294967280`,
zero-valued cached fields. -/
theorem C7_arith_matches_bitwise_witness :
    (183806472 : Nat) < 4294967296 ∧ (4294967280 : Nat) < 4294967296 ∧
      (ipcalcA.Network ⟨183806472, 4294967280⟩ = Network ⟨183806472, 4294967280⟩ ∧
        ipcalcA.Broadcast ⟨183806472, 4294967280⟩ =
          Broadcast ⟨183806472, 4294967280⟩ ∧
        (maingo.setNetwork ⟨183806472, 4294967280, 0, 0⟩).Network =
          Network ⟨183806472, 4294967280⟩ ∧
        (maingo.setBroadcast (maingo.setNetwork ⟨183806472, 4294967280, 0, 0⟩)).Broadcast =
          Broadcast ⟨183806472, 4294967280⟩) :=
  ⟨by norm_num, by norm_num,
    C7_arith_matches_bitwise 183806472 4294967280 0 0 (by norm_num) (by norm_num)⟩

/-- C8: `Subnet` terminates on every pair of in-range inputs (in this
embedding it is a total function, defined by well-founded recursion on
`stop - start`), and `SubnetDepth`, which counts the recursion depth of
`Subnet` level for level, never exceeds 33. -/
theorem C8_depth_bounded (start stop : Nat) (h1 : start < 4294967296)
    (h2 : stop < 4294967296) :
    SubnetDepth start stop h1 h2 ≤ 33 :=
  le_trans (SubnetDepth_bound stop h2 (stop - start) start h1 rfl)
    (Nat.sub_le 33 (lowBits start))

/-- C8 at the concrete input `start = 1`, `stop = 3`. -/
theorem C8_depth_bounded_witness :
    (1 : Nat) < 4294967296 ∧ (3 : Nat) < 4294967296 ∧
      SubnetDepth 1 3 (by norm_num) (by norm_num) ≤ 33 :=
  ⟨by norm_num, by norm_num, C8_depth_bounded 1 3 (by norm_num) (by norm_num)⟩

/-- C9: the claim states that `CidrToIpv4` fails on every malformed CIDR
string — that it succeeds only on a valid dotted-decimal address
optionally followed by a slash and a valid mask length.  It fails:
"1.2.3.4/5/6" has two slashes, so it is not of that form (second
conjunct, against the spec-modelled `SpecCidr`), yet `CidrToIpv4`
accepts it — `strings.Split` yields three fields, the length-2 check
fails, and the extra fields are silently dropped in favour of the
default all-ones mask. -/
theorem C9_parse_counterexample :
    CidrToIpv4 ("1.2.3.4/5/6".toList) = .ok ⟨16909060, TwoFiveFive⟩ ∧
      ¬ SpecCidr ("1.2.3.4/5/6".toList) :=
  ⟨by decide, not_specCidr_counterexample⟩

/-- C9 (amended): the parsers' actual success conditions, for every
input string: `DottedDecimalToUint32` succeeds iff splitting on dots
yields exactly four fields each accepted by `strconv.Atoi` with value in
`0..=255` (signed forms such as "+1" included); `stringToMask` succeeds
iff `strconv.Atoi` accepts the string with value in `0..=32`; and
`CidrToIpv4` succeeds iff the field before the first slash parses as a
dotted quad and, when splitting on slashes yields exactly two fields,
the second parses as a mask length — any other number of slash-separated
fields leaves the default all-ones mask, so strings with two or more
slashes are not rejected. -/
theorem C9_parse_amended (s : Str) :
    ((∃ v, DottedDecimalToUint32 s = .ok v) ↔
        ((splitOnChar '.' s).length = 4 ∧
          ∀ p ∈ splitOnChar '.' s, ∃ n : Int, Atoi p = some n ∧ 0 ≤ n ∧ n ≤ 255)) ∧
      ((∃ m, stringToMask s = .ok m) ↔
        (∃ n : Int, Atoi s = some n ∧ 0 ≤ n ∧ n ≤ 32)) ∧
      ((∃ i, CidrToIpv4 s = .ok i) ↔
        ((∃ v, DottedDecimalToUint32 ((splitOnChar '/' s).headD []) = .ok v) ∧
          ((splitOnChar '/' s).length = 2 →
            ∃ m, stringToMask ((splitOnChar '/' s).getD 1 []) = .ok m))) :=
  ⟨DottedDecimal_ok_iff s, stringToMask_ok_iff s, CidrToIpv4_ok_iff s⟩

/-- C10: whenever `Subnet start stop` returns without error, every block
of the returned list is aligned to its own mask (`Addr & Mask = Addr`)
and has a contiguous mask, the first block starts at `start`, each later
block starts one past the previous block's broadcast, and the last
block's broadcast is `stop`. -/
theorem C10_subnet_invariants (start stop : Nat) (h1 : start < 4294967296)
    (h2 : stop < 4294967296) (l : List Ipv4)
    (hok : Subnet start stop h1 h2 = .ok l) :
    (∀ b ∈ l, b.Addr &&& b.Mask = b.Addr ∧ IsContiguous b = true) ∧
      ChainCover stop start l :=
  Subnet_ok_aux stop h2 (stop - start) start h1 rfl l hok

/-- C10 at the concrete input `start = 1`, `stop = 3`, whose result is
the two-block chain `[(1, /32), (2, /31)]`. -/
theorem C10_subnet_invariants_witness :
    Subnet 1 3 (by norm_num) (by norm_num) =
        .ok [⟨1, 4294967295⟩, ⟨2, 4294967294⟩] ∧
      ((∀ b ∈ [(⟨1, 4294967295⟩ : Ipv4), ⟨2, 4294967294⟩],
          b.Addr &&& b.Mask = b.Addr ∧ IsContiguous b = true) ∧
        ChainCover 3 1 [⟨1, 4294967295⟩, ⟨2, 4294967294⟩]) :=
  ⟨subnet_eval_1_3,
    C10_subnet_invariants 1 3 (by norm_num) (by norm_num) _ subnet_eval_1_3⟩
